import Mathlib

/-!
Verification of the openq waitlist queue and open-house lifecycle model.

The definitions below are a shallow embedding of the queue core:
* the waitlist table rows (`Entry`) with their position and status fields,
  from `supabase-schema.sql`;
* the SQL function `reorder_waitlist_entry` and the `reorder_on_delete`
  trigger (`reorder_waitlist_positions`) from `supabase-schema.sql`;
* the service operations `joinWaitlist`, `getWaitlist`, `updateEntryStatus`
  and the dashboard handlers `handleCallNext` / `handleComplete` from
  `waitlistService.ts` and `EventDashboardScreen.tsx`;
* the event lifecycle reads `getEvent`, `checkAndTransitionEventStatus`
  and `getEventsByAgent` from `eventService.ts`.

Timestamps (ISO-8601 strings in the source, compared lexicographically,
which for a fixed UTC format agrees with chronological order) are modelled
as natural numbers.  Row ids (UUIDs) are modelled as natural numbers.
-/

namespace OpenQ

/-- Waitlist entry status, from the CHECK constraint on `waitlist_entries.status`. -/
inductive EntryStatus
  | waiting
  | touring
  | completed
  | skipped
  | noShow
deriving DecidableEq, Repr

/-- One row of `waitlist_entries` (the fields the core logic reads). -/
structure Entry where
  id : Nat
  pos : Nat
  status : EntryStatus
  startedTourAt : Option Nat
  completedAt : Option Nat
deriving DecidableEq, Repr

/-- Event status, from the CHECK constraint on `open_house_events.status`. -/
inductive EventStatus
  | scheduled
  | active
  | completed
  | cancelled
deriving DecidableEq, Repr

/-- One row of `open_house_events` (the fields the core logic reads). -/
structure Event where
  id : Nat
  startTime : Nat
  endTime : Nat
  status : EventStatus
deriving DecidableEq, Repr

/-- The position column of a list of entries (one event's rows). -/
def positions (l : List Entry) : List Nat := l.map Entry.pos

/-- Maximum position among the entries (0 when there are none), as computed by
`joinWaitlist` via `order('position', descending).limit(1)`. -/
def maxPos (l : List Entry) : Nat := (positions l).foldr max 0

/-- `nextPosition` from `joinWaitlist`: `maxPosData[0].position + 1` when rows
exist, else `1`. -/
def nextPosition (l : List Entry) : Nat :=
  if l.isEmpty then 1 else maxPos l + 1

/-- The entry inserted by `joinWaitlist`: fresh row at `nextPosition`,
status `waiting`, both tour timestamps null. -/
def joinEntry (l : List Entry) (i : Nat) : Entry :=
  ⟨i, nextPosition l, .waiting, none, none⟩

/-- The event's rows after a join (the insert appends one row). -/
def joinList (l : List Entry) (i : Nat) : List Entry :=
  l ++ [joinEntry l i]

/-- The shift performed by `reorder_waitlist_entry` when moving up
(`p_new_position < v_old_position`): `position + 1` where
`p_new_position <= position AND position < v_old_position`. -/
def shiftUp (l : List Entry) (np op : Nat) : List Entry :=
  l.map fun x => if np ≤ x.pos ∧ x.pos < op then { x with pos := x.pos + 1 } else x

/-- The shift performed by `reorder_waitlist_entry` when moving down:
`position - 1` where `v_old_position < position AND position <= p_new_position`. -/
def shiftDown (l : List Entry) (op np : Nat) : List Entry :=
  l.map fun x => if op < x.pos ∧ x.pos ≤ np then { x with pos := x.pos - 1 } else x

/-- The final `UPDATE ... SET position = p_new_position WHERE id = p_entry_id`. -/
def setPos (l : List Entry) (i np : Nat) : List Entry :=
  l.map fun x => if x.id = i then { x with pos := np } else x

/-- The post-update integrity check of `reorder_waitlist_entry`: every row of
the event, ordered by position, must carry position = ROW_NUMBER, i.e. the
sorted position column must be exactly `1, 2, ..., N`. -/
def seqCheck (l : List Entry) : Bool :=
  decide (List.insertionSort (· ≤ ·) (positions l) = List.range' 1 l.length)

/-- The SQL function `reorder_waitlist_entry`.  The whole body runs in one
transaction, so the RAISE EXCEPTION paths roll everything back: they are
modelled by returning `.error` and no list.

This definition omits the abort the non-deferrable unique index
`idx_waitlist_unique_position` imposes on the shift statement (modelled in
`reorderRPC`): a shifted row landing on an occupied position — in
particular on the old position the target row still holds — fails the
statement and rolls the call back.  The omission is sound where this
definition is used: an omitted abort is a rollback leaving the rows
unchanged, so invariant-preservation results only gain from it, and the
concrete reorders evaluated below have empty shift windows and vacated
destinations, on which the two models agree. -/
def reorder (l : List Entry) (i np : Nat) : Except String (List Entry) :=
  match l.find? (fun x => x.id == i) with
  | none => .error "Entry not found"
  | some e =>
    if e.pos = np then .ok l
    else if
      seqCheck (setPos (if np < e.pos then shiftUp l np e.pos else shiftDown l e.pos np) i np)
    then .ok (setPos (if np < e.pos then shiftUp l np e.pos else shiftDown l e.pos np) i np)
    else .error "Position integrity check failed: gaps or duplicates detected"

/-- Whether a set of rows violates the unique index
`idx_waitlist_unique_position`: two rows of the event on one position. -/
def hasDupPositions (l : List Entry) : Bool :=
  decide (¬(positions l).Nodup)

/-- `reorder_waitlist_entry` including the non-deferrable unique index
`idx_waitlist_unique_position`: every UPDATE statement must leave the
event's positions duplicate-free, otherwise it raises
`duplicate key value violates unique constraint` and the transaction rolls
back.  The shift statement runs while the target row still holds its old
position and never touches the target, so a shifted row landing on that
position fails the statement under every row-processing order.  This model
checks each statement's end state, which captures exactly the
order-independent violations; transient collisions inside the shifted
window, which depend on the physical row order, are not modelled, so only
failure results and the no-op path are asserted about this definition. -/
def reorderRPC (l : List Entry) (i np : Nat) : Except String (List Entry) :=
  match l.find? (fun x => x.id == i) with
  | none => .error "Entry not found"
  | some e =>
    if e.pos = np then .ok l
    else if
      hasDupPositions (if np < e.pos then shiftUp l np e.pos else shiftDown l e.pos np)
    then .error "duplicate key value violates unique constraint"
    else if
      hasDupPositions
        (setPos (if np < e.pos then shiftUp l np e.pos else shiftDown l e.pos np) i np)
    then .error "duplicate key value violates unique constraint"
    else if
      seqCheck (setPos (if np < e.pos then shiftUp l np e.pos else shiftDown l e.pos np) i np)
    then .ok (setPos (if np < e.pos then shiftUp l np e.pos else shiftDown l e.pos np) i np)
    else .error "Position integrity check failed: gaps or duplicates detected"

/-- The `reorder_on_delete` trigger body (`reorder_waitlist_positions`):
after a row is deleted, `position - 1` for rows of the same event with
`position > OLD.position AND status = 'waiting'`.

Like `reorder`, this omits the unique-index abort path: when a decremented
`waiting` row lands on the position of an untouched non-`waiting` row the
real trigger fails and the whole DELETE rolls back, whereas this model
commits.  The omission is benign where the definition is used: the
invariant-preservation theorem assumes every row above the deleted one is
`waiting`, in which case the decremented rows land pairwise-distinct on
positions no untouched row holds, and in the concrete removals evaluated
below the decrement set is empty — in both regimes trigger and model
agree, and an omitted abort elsewhere is a rollback that trivially keeps
the `{1..N}` invariant. -/
def compact (l : List Entry) (p : Nat) : List Entry :=
  l.map fun x =>
    if p < x.pos ∧ x.status = EntryStatus.waiting then { x with pos := x.pos - 1 } else x

/-- Deleting one entry by id followed by the `reorder_on_delete` trigger. -/
def removeEntry (l : List Entry) (i : Nat) : List Entry :=
  match l.find? (fun x => x.id == i) with
  | none => l
  | some e => compact (l.eraseP (fun x => x.id == i)) e.pos

/-- One mutation of an event's waitlist: a join, a manual reorder, or a
deletion (with its compaction trigger). -/
inductive LedgerOp
  | join (i : Nat)
  | reorder (i np : Nat)
  | remove (i : Nat)
deriving DecidableEq, Repr

/-- The state of the event's rows after a mutation settles.  A rejected
reorder rolls back, leaving the rows unchanged. -/
def applyOp (l : List Entry) : LedgerOp → List Entry
  | .join i => joinList l i
  | .reorder i np =>
    match reorder l i np with
    | .ok l' => l'
    | .error _ => l
  | .remove i => removeEntry l i

/-- Run a sequence of mutations. -/
def applyOps (l : List Entry) (ops : List LedgerOp) : List Entry :=
  ops.foldl applyOp l

/-- The sequential-positions invariant: the position column is a
permutation of `1, 2, ..., N` where `N` is the entry count. -/
def positionsOk (l : List Entry) : Prop :=
  (positions l).Perm (List.range' 1 l.length)

instance (l : List Entry) : Decidable (positionsOk l) :=
  List.decidablePerm (positions l) (List.range' 1 l.length)

/-- Side condition under which a deletion's compaction closes the gap: every
row of the event placed after the deleted row is still `waiting` (the
trigger decrements only `waiting` rows). -/
def removeOkB (l : List Entry) (i : Nat) : Bool :=
  match l.find? (fun x => x.id == i) with
  | none => true
  | some e =>
    l.all fun x => !(decide (e.pos < x.pos)) || decide (x.status = EntryStatus.waiting)

/-- Whether one mutation is applied in a state where it preserves the
sequential invariant unconditionally (joins and reorders) or satisfies the
deletion side condition. -/
def opOkB (l : List Entry) : LedgerOp → Bool
  | .remove i => removeOkB l i
  | _ => true

/-- Whether every mutation of the run satisfies `opOkB` in the state it is
applied in. -/
def goodRunB : List Entry → List LedgerOp → Bool
  | _, [] => true
  | l, op :: ops => opOkB l op && goodRunB (applyOp l op) ops

/-- The distinct user-facing failures of `joinWaitlist` ("Event not found",
"This open house is not currently active", "This open house hasn't started
yet...", "This open house event has already ended"). -/
inductive JoinError
  | notFound
  | notActive
  | notStarted
  | ended
deriving DecidableEq, Repr

/-- `joinWaitlist` (the validating version): fetch the event; reject unless
its stored status is `active`; reject when `now < start_time` or
`now > end_time`; otherwise insert the new entry at `nextPosition` with
status `waiting`.  Returns the updated rows and the created entry. -/
def joinWaitlist (ev? : Option Event) (now : Nat) (l : List Entry) (i : Nat) :
    Except JoinError (List Entry × Entry) :=
  match ev? with
  | none => .error .notFound
  | some ev =>
    if ev.status ≠ EventStatus.active then .error .notActive
    else if now < ev.startTime then .error .notStarted
    else if ev.endTime < now then .error .ended
    else .ok (joinList l i, joinEntry l i)

/-- The optional caller-supplied fields of `updateEntryStatus`
(`additionalData?.started_tour_at`, `additionalData?.completed_at`). -/
structure UpdateExtra where
  startedTourAt : Option Nat
  completedAt : Option Nat
deriving DecidableEq, Repr

/-- `updateEntryStatus` called with no `additionalData`. -/
def noExtra : UpdateExtra := ⟨none, none⟩

/-- `updateEntryStatus`: set the requested status unconditionally; stamp
`started_tour_at = now` when the requested status is `touring` and the
caller did not supply one, and `completed_at = now` when it is `completed`
and the caller did not supply one; caller-supplied timestamps are written
as given; all other fields keep their stored values. -/
def updateEntryStatus (e : Entry) (st : EntryStatus) (extra : UpdateExtra) (now : Nat) :
    Entry :=
  { e with
    status := st
    startedTourAt :=
      match extra.startedTourAt with
      | some t => some t
      | none => if st = EntryStatus.touring then some now else e.startedTourAt
    completedAt :=
      match extra.completedAt with
      | some t => some t
      | none => if st = EntryStatus.completed then some now else e.completedAt }

/-- `getWaitlist` orders the event's rows by position ascending. -/
def sortByPos (l : List Entry) : List Entry :=
  List.insertionSort (fun a b => a.pos ≤ b.pos) l

/-- The selection of `handleCallNext`: the first `waiting` row of the
position-ordered waitlist. -/
def callNextSelect (l : List Entry) : Option Entry :=
  (sortByPos l).find? (fun x => x.status == EntryStatus.waiting)

/-- `handleCallNext`: when no row is `waiting`, show the "Queue Empty"
alert and mutate nothing; otherwise transition the selected row to
`touring` via `updateEntryStatus`. -/
def callNext (l : List Entry) (now : Nat) : Option Entry × List Entry :=
  match callNextSelect l with
  | none => (none, l)
  | some e =>
    (some e,
      l.map fun x => if x.id = e.id then updateEntryStatus x EntryStatus.touring noExtra now else x)

/-- `checkAndTransitionEventStatus`: persist `scheduled → active` once
`start_time <= now`, `active → completed` once `end_time <= now`,
otherwise return the event unchanged. -/
def checkAndTransitionEventStatus (ev : Event) (now : Nat) : Event :=
  if ev.status = EventStatus.scheduled ∧ ev.startTime ≤ now then
    { ev with status := EventStatus.active }
  else if ev.status = EventStatus.active ∧ ev.endTime ≤ now then
    { ev with status := EventStatus.completed }
  else ev

/-- `getEvent`: a plain point lookup of the stored row; no transition check
runs on this read path. -/
def getEvent (store : List Event) (eid : Nat) : Option Event :=
  store.find? (fun ev => ev.id == eid)

/-- `checkAndTransitionAllAgentEvents`: run the transition check over every
stored event of the agent. -/
def checkAllEvents (store : List Event) (now : Nat) : List Event :=
  store.map fun ev => checkAndTransitionEventStatus ev now

/-- `getEventsByAgent`: transition all of the agent's events first, then
fetch the non-completed ones and partition them into
(`scheduled` with a future start, `active`). -/
def getEventsByAgent (store : List Event) (now : Nat) : List Event × List Event :=
  let store' := checkAllEvents store now
  let nonCompleted := store'.filter fun ev =>
    ev.status = EventStatus.scheduled ∨ ev.status = EventStatus.active
  (nonCompleted.filter fun ev => ev.status = EventStatus.scheduled ∧ now < ev.startTime,
   nonCompleted.filter fun ev => ev.status = EventStatus.active)

/-- One racing client of the two-joins race: it has not yet read the max
position, has read it, or has finished with its insert's outcome. -/
inductive ClientPhase
  | start
  | haveMax (n : Nat)
  | done (r : Except String Nat)
deriving Repr

/-- Shared store plus the two racing join calls. -/
structure RaceState where
  entries : List Entry
  a : ClientPhase
  b : ClientPhase
deriving Repr

/-- One round trip of one client.  The first trip is the max-position read;
the second is the insert, which the unique index
`idx_waitlist_unique_position` on `(event_id, position)` rejects when a row
with that position already exists (the service does not retry). -/
def clientStep (entries : List Entry) (c : ClientPhase) (cid : Nat) :
    List Entry × ClientPhase :=
  match c with
  | .start => (entries, .haveMax (maxPos entries))
  | .haveMax n =>
    let p := n + 1
    if entries.any fun e => e.pos = p then
      (entries, .done (.error "duplicate key value violates unique constraint"))
    else
      (entries ++ [⟨cid, p, EntryStatus.waiting, none, none⟩], .done (.ok p))
  | .done r => (entries, .done r)

/-- Let client A (`turn = true`) or client B take its next round trip. -/
def raceStep (s : RaceState) (turn : Bool) : RaceState :=
  if turn then
    { s with entries := (clientStep s.entries s.a 1).1, a := (clientStep s.entries s.a 1).2 }
  else
    { s with entries := (clientStep s.entries s.b 2).1, b := (clientStep s.entries s.b 2).2 }

/-- Run an interleaving of the two clients' round trips. -/
def runRace (s : RaceState) (sched : List Bool) : RaceState :=
  sched.foldl raceStep s

/-- Both clients poised to join. -/
def raceStart : RaceState := ⟨[], .start, .start⟩

instance : IsTotal Entry (fun a b => a.pos ≤ b.pos) :=
  ⟨fun a b => Nat.le_total a.pos b.pos⟩

instance : IsTrans Entry (fun a b => a.pos ≤ b.pos) :=
  ⟨fun _ _ _ hab hbc => Nat.le_trans hab hbc⟩

instance : DecidableRel (fun (a b : Entry) => a.pos ≤ b.pos) :=
  fun a b => Nat.decLe a.pos b.pos

theorem nextPosition_eq (l : List Entry) : nextPosition l = maxPos l + 1 := by
  cases l with
  | nil => rfl
  | cons a t => rfl

/-- C3: `joinWaitlist` rejects a `scheduled` and a `completed` event, rejects
an `active` event when `now` lies outside `[start_time, end_time]`, succeeds
on an `active` event with `now` inside the window returning a `waiting`
entry, and the three failure reasons are pairwise distinct. -/
theorem joinWaitlist_gating (ev : Event) (now : Nat) (l : List Entry) (i : Nat) :
    (ev.status = EventStatus.scheduled →
      joinWaitlist (some ev) now l i = .error JoinError.notActive) ∧
    (ev.status = EventStatus.completed →
      joinWaitlist (some ev) now l i = .error JoinError.notActive) ∧
    (ev.status = EventStatus.active → now < ev.startTime →
      joinWaitlist (some ev) now l i = .error JoinError.notStarted) ∧
    (ev.status = EventStatus.active → ev.startTime ≤ now → ev.endTime < now →
      joinWaitlist (some ev) now l i = .error JoinError.ended) ∧
    (ev.status = EventStatus.active → ev.startTime ≤ now → now ≤ ev.endTime →
      joinWaitlist (some ev) now l i = .ok (joinList l i, joinEntry l i) ∧
        (joinEntry l i).status = EntryStatus.waiting) ∧
    (JoinError.notActive ≠ JoinError.notStarted ∧
      JoinError.notActive ≠ JoinError.ended ∧
      JoinError.notStarted ≠ JoinError.ended) := by
  refine ⟨?_, ?_, ?_, ?_, ?_, by decide⟩
  · intro h
    simp [joinWaitlist, h]
  · intro h
    simp [joinWaitlist, h]
  · intro h hlt
    simp [joinWaitlist, h, hlt]
  · intro h hs hgt
    simp [joinWaitlist, h, Nat.not_lt.mpr hs, hgt]
  · intro h hs he
    constructor
    · simp [joinWaitlist, h, Nat.not_lt.mpr hs, Nat.not_lt.mpr he]
    · rfl

/-- Witness for `joinWaitlist_gating` at concrete events. -/
theorem joinWaitlist_gating_witness :
    joinWaitlist (some ⟨1, 10, 20, EventStatus.scheduled⟩) 5 [] 1 =
      .error JoinError.notActive ∧
    joinWaitlist (some ⟨1, 0, 100, EventStatus.active⟩) 50 [] 1 =
      .ok (joinList [] 1, joinEntry [] 1) :=
  ⟨(joinWaitlist_gating ⟨1, 10, 20, EventStatus.scheduled⟩ 5 [] 1).1 rfl,
    ((joinWaitlist_gating ⟨1, 0, 100, EventStatus.active⟩ 50 [] 1).2.2.2.2.1 rfl
      (by decide) (by decide)).1⟩

/-- C4: a successful join assigns position `max(existing positions) + 1`; two
sequential joins on an empty event yield positions 1 and then 2. -/
theorem join_position_max_plus_one :
    (∀ (ev : Event) (now : Nat) (l : List Entry) (i : Nat) (l' : List Entry) (en : Entry),
      joinWaitlist (some ev) now l i = .ok (l', en) → en.pos = maxPos l + 1) ∧
    (joinEntry [] 1).pos = 1 ∧ (joinEntry (joinList [] 1) 2).pos = 2 := by
  refine ⟨?_, by decide, by decide⟩
  intro ev now l i l' en h
  simp only [joinWaitlist] at h
  split at h
  · cases h
  · split at h
    · cases h
    · split at h
      · cases h
      · rw [Except.ok.injEq, Prod.mk.injEq] at h
        rw [← h.2, joinEntry, nextPosition_eq]

/-- Witness for `join_position_max_plus_one` at a concrete join. -/
theorem join_position_max_plus_one_witness :
    (joinEntry [] 1).pos = maxPos [] + 1 :=
  join_position_max_plus_one.1 ⟨1, 0, 100, EventStatus.active⟩ 50 [] 1
    (joinList [] 1) (joinEntry [] 1) rfl

/-- C5 counterexample: `updateEntryStatus` accepts the backward transition
`completed → waiting`: the request succeeds and the status changes, where
the claim requires it to fail and leave the status unchanged. -/
theorem updateEntryStatus_backward_accepted :
    (updateEntryStatus ⟨1, 1, EntryStatus.completed, some 10, some 20⟩
        EntryStatus.waiting noExtra 100).status = EntryStatus.waiting ∧
      EntryStatus.waiting ≠ EntryStatus.completed := by
  decide

/-- C5 amended: `updateEntryStatus` performs no transition validation — it
unconditionally sets whatever status is requested (there is no
`InvalidTransition` failure); the allowed edges are maintained only by the
dashboard callers, which request `touring` for a `waiting` entry (the
call-next selection) and stamp `started_tour_at` on that request. -/
theorem updateEntryStatus_no_validation :
    (∀ (e : Entry) (st : EntryStatus) (extra : UpdateExtra) (now : Nat),
      (updateEntryStatus e st extra now).status = st) ∧
    (∀ (l : List Entry) (e : Entry),
      callNextSelect l = some e → e.status = EntryStatus.waiting) ∧
    (∀ (e : Entry) (now : Nat),
      (updateEntryStatus e EntryStatus.touring noExtra now).startedTourAt = some now) := by
  refine ⟨fun e st extra now => rfl, ?_, fun e now => rfl⟩
  intro l e h
  have := List.find?_some h
  simpa using this

/-- Witness for `updateEntryStatus_no_validation` at a concrete waitlist. -/
theorem updateEntryStatus_no_validation_witness :
    (⟨2, 2, EntryStatus.waiting, none, none⟩ : Entry).status = EntryStatus.waiting :=
  updateEntryStatus_no_validation.2.1
    [⟨1, 1, EntryStatus.skipped, none, none⟩, ⟨2, 2, EntryStatus.waiting, none, none⟩]
    ⟨2, 2, EntryStatus.waiting, none, none⟩ (by decide)

/-- C6 counterexample: a second CompleteTour call succeeds and overwrites
`completed_at` (first call stamps 100, second call re-stamps 200), where the
claim requires the second call to fail and keep the first timestamp. -/
theorem completedAt_overwritten :
    (updateEntryStatus
        (updateEntryStatus ⟨1, 1, EntryStatus.touring, some 10, none⟩
          EntryStatus.completed noExtra 100)
        EntryStatus.completed noExtra 200).completedAt = some 200 ∧
      (updateEntryStatus ⟨1, 1, EntryStatus.touring, some 10, none⟩
        EntryStatus.completed noExtra 100).completedAt = some 100 ∧
      some 200 ≠ some 100 := by
  decide

/-- C6 amended: every CompleteTour call succeeds and stamps `completed_at`
with that call's time, so a repeated call overwrites the earlier timestamp
(no `InvalidTransition`, no write-once guard); repeated `touring` requests
likewise overwrite `started_tour_at`. -/
theorem completeTour_overwrites :
    ∀ (e : Entry) (n1 n2 : Nat),
      (updateEntryStatus e EntryStatus.completed noExtra n1).completedAt = some n1 ∧
      (updateEntryStatus (updateEntryStatus e EntryStatus.completed noExtra n1)
        EntryStatus.completed noExtra n2).completedAt = some n2 ∧
      (updateEntryStatus e EntryStatus.touring noExtra n1).startedTourAt = some n1 ∧
      (updateEntryStatus (updateEntryStatus e EntryStatus.touring noExtra n1)
        EntryStatus.touring noExtra n2).startedTourAt = some n2 :=
  fun _ _ _ => ⟨rfl, rfl, rfl, rfl⟩

theorem find?_min_of_sorted (pr : Entry → Bool) :
    ∀ (l : List Entry), List.Sorted (fun a b : Entry => a.pos ≤ b.pos) l →
      ∀ (e : Entry), l.find? pr = some e → ∀ x ∈ l, pr x = true → e.pos ≤ x.pos := by
  intro l
  induction l with
  | nil =>
    intro _ e h
    cases h
  | cons a t ih =>
    intro hs e hf x hx hpx
    rw [List.sorted_cons] at hs
    by_cases ha : pr a
    · rw [List.find?_cons_of_pos _ ha] at hf
      cases hf
      rcases List.mem_cons.mp hx with rfl | hx
      · exact Nat.le_refl _
      · exact hs.1 x hx
    · rw [List.find?_cons_of_neg _ ha] at hf
      rcases List.mem_cons.mp hx with rfl | hx
      · exact absurd hpx (by simp [ha])
      · exact ih hs.2 e hf x hx hpx

/-- C7: call-next selects, among the `waiting` rows, the one with the lowest
position (for positions 1(skipped), 2(waiting), 3(waiting) it selects the
row at position 2); when no row is `waiting` it reports the empty queue and
mutates nothing; the selected row is transitioned to `touring`. -/
theorem callNext_lowest_waiting :
    (∀ (l : List Entry) (now : Nat),
      callNextSelect l = none →
        (∀ x ∈ l, x.status ≠ EntryStatus.waiting) ∧ callNext l now = (none, l)) ∧
    (∀ (l : List Entry) (now : Nat) (e : Entry),
      callNextSelect l = some e →
        e ∈ l ∧ e.status = EntryStatus.waiting ∧
        (∀ x ∈ l, x.status = EntryStatus.waiting → e.pos ≤ x.pos) ∧
        callNext l now =
          (some e, l.map fun x =>
            if x.id = e.id then updateEntryStatus x EntryStatus.touring noExtra now
            else x)) ∧
    callNextSelect
        [⟨1, 1, EntryStatus.skipped, none, none⟩, ⟨2, 2, EntryStatus.waiting, none, none⟩,
          ⟨3, 3, EntryStatus.waiting, none, none⟩] =
      some ⟨2, 2, EntryStatus.waiting, none, none⟩ := by
  have hperm : ∀ l : List Entry, (sortByPos l).Perm l := fun l =>
    List.perm_insertionSort (fun a b : Entry => a.pos ≤ b.pos) l
  refine ⟨?_, ?_, by decide⟩
  · intro l now h
    have hall := List.find?_eq_none.mp h
    constructor
    · intro x hx hw
      have hx' : x ∈ sortByPos l := (hperm l).mem_iff.mpr hx
      have := hall x hx'
      simp [hw] at this
    · simp [callNext, h]
  · intro l now e h
    have hmem : e ∈ sortByPos l := List.mem_of_find?_eq_some h
    have hstat : e.status = EntryStatus.waiting := by
      have := List.find?_some h
      simpa using this
    refine ⟨(hperm l).mem_iff.mp hmem, hstat, ?_, by simp [callNext, h]⟩
    intro x hx hw
    exact find?_min_of_sorted _ (sortByPos l)
      (List.sorted_insertionSort _ l) e h x ((hperm l).mem_iff.mpr hx) (by simp [hw])

/-- Witness for `callNext_lowest_waiting` on a queue with no waiting row. -/
theorem callNext_lowest_waiting_witness :
    (∀ x ∈ [(⟨1, 1, EntryStatus.skipped, none, none⟩ : Entry)],
      x.status ≠ EntryStatus.waiting) ∧
    callNext [⟨1, 1, EntryStatus.skipped, none, none⟩] 5 =
      (none, [⟨1, 1, EntryStatus.skipped, none, none⟩]) :=
  callNext_lowest_waiting.1 [⟨1, 1, EntryStatus.skipped, none, none⟩] 5 (by decide)

/-- C8 counterexample: an event stored as `scheduled` whose window
`[0, 200]` contains the read time 100 reads back as `scheduled`, not
`active`: the single-event read `getEvent` runs no transition check at all
(it does not even consult the clock). -/
theorem getEvent_no_lazy_transition :
    getEvent [⟨1, 0, 200, EventStatus.scheduled⟩] 1 =
      some ⟨1, 0, 200, EventStatus.scheduled⟩ ∧
    EventStatus.scheduled ≠ EventStatus.active ∧
    (0 : Nat) ≤ 100 ∧ (100 : Nat) < 200 := by
  decide

/-- C8 amended: only the agent event-list read (`getEventsByAgent`) runs and
persists the time-driven transitions before returning;
`checkAndTransitionEventStatus` implements `scheduled → active` when
`now ≥ start_time` and `active → completed` when `now ≥ end_time`, but a
single-event read (`getEvent`) returns the stored row unchanged, so a stored
`scheduled` event whose start has passed reads back as `scheduled` there. -/
theorem lazy_transition_only_on_list_read :
    (∀ (store : List Event) (eid : Nat) (ev : Event),
      getEvent store eid = some ev → ev ∈ store) ∧
    (∀ (ev : Event) (now : Nat),
      (ev.status = EventStatus.scheduled → ev.startTime ≤ now →
        checkAndTransitionEventStatus ev now = { ev with status := EventStatus.active }) ∧
      (ev.status = EventStatus.active → ev.endTime ≤ now →
        checkAndTransitionEventStatus ev now = { ev with status := EventStatus.completed }) ∧
      (ev.status = EventStatus.scheduled → now < ev.startTime →
        checkAndTransitionEventStatus ev now = ev) ∧
      (ev.status = EventStatus.active → now < ev.endTime →
        checkAndTransitionEventStatus ev now = ev)) ∧
    (∀ (store : List Event) (now : Nat) (ev : Event),
      ev ∈ store → ev.status = EventStatus.scheduled → ev.startTime ≤ now →
      { ev with status := EventStatus.active } ∈ (getEventsByAgent store now).2) := by
  refine ⟨?_, ?_, ?_⟩
  · intro store eid ev h
    exact List.mem_of_find?_eq_some h
  · intro ev now
    refine ⟨?_, ?_, ?_, ?_⟩
    · intro h hs
      simp [checkAndTransitionEventStatus, h, hs]
    · intro h he
      simp [checkAndTransitionEventStatus, h, he]
    · intro h hs
      simp [checkAndTransitionEventStatus, h, Nat.not_le.mpr hs]
    · intro h he
      simp [checkAndTransitionEventStatus, h, Nat.not_le.mpr he]
  · intro store now ev hmem h hs
    have hck : checkAndTransitionEventStatus ev now = { ev with status := EventStatus.active } := by
      simp [checkAndTransitionEventStatus, h, hs]
    have hmem' : { ev with status := EventStatus.active } ∈ checkAllEvents store now := by
      rw [← hck]
      exact List.mem_map_of_mem _ hmem
    simp only [getEventsByAgent, List.mem_filter]
    refine ⟨⟨hmem', by simp⟩, by simp⟩

/-- Witness for `lazy_transition_only_on_list_read` at a concrete store. -/
theorem lazy_transition_only_on_list_read_witness :
    ({ (⟨1, 0, 200, EventStatus.scheduled⟩ : Event) with status := EventStatus.active } ∈
      (getEventsByAgent [⟨1, 0, 200, EventStatus.scheduled⟩] 100).2) :=
  lazy_transition_only_on_list_read.2.2 [⟨1, 0, 200, EventStatus.scheduled⟩] 100
    ⟨1, 0, 200, EventStatus.scheduled⟩ (by decide) rfl (by decide)

theorem positions_append (l1 l2 : List Entry) :
    positions (l1 ++ l2) = positions l1 ++ positions l2 :=
  List.map_append Entry.pos l1 l2

theorem clientStep_nodup (entries : List Entry) (c : ClientPhase) (cid : Nat)
    (h : (positions entries).Nodup) : (positions (clientStep entries c cid).1).Nodup := by
  cases c with
  | start => exact h
  | done r => exact h
  | haveMax n =>
    by_cases hany : (entries.any fun e => e.pos = n + 1) = true
    · simpa [clientStep, hany] using h
    · have hany' : (entries.any fun e => e.pos = n + 1) = false := by
        cases hb : entries.any fun e => e.pos = n + 1
        · rfl
        · exact absurd hb hany
      have hnot : ∀ e ∈ entries, ¬e.pos = n + 1 := by
        intro e he hc
        exact hany (List.any_eq_true.mpr ⟨e, he, by simpa using hc⟩)
      have hstep : (clientStep entries (ClientPhase.haveMax n) cid).1 =
          entries ++ [⟨cid, n + 1, EntryStatus.waiting, none, none⟩] := by
        simp [clientStep, hany']
      rw [hstep, positions_append, List.nodup_append]
      refine ⟨h, by simp [positions], ?_⟩
      intro a ha hb
      simp only [positions, List.map_cons, List.map_nil, List.mem_singleton] at hb
      subst hb
      rcases List.mem_map.mp ha with ⟨e, he, hpe⟩
      exact hnot e he hpe

theorem raceStep_nodup (s : RaceState) (turn : Bool)
    (h : (positions s.entries).Nodup) : (positions (raceStep s turn).entries).Nodup := by
  cases turn
  · simpa only [raceStep, if_neg Bool.false_ne_true] using clientStep_nodup s.entries s.b 2 h
  · simpa only [raceStep, if_pos rfl] using clientStep_nodup s.entries s.a 1 h

/-- C9 counterexample: with the interleaving A-read, B-read, A-insert,
B-insert, client B's insert hits the unique index and fails outright and
only one entry is committed, while under either serial order both joins
succeed with two entries — so compute-next-position plus insert is not
executed as one atomic/serializable unit and no retry serializes the loser. -/
theorem join_race_not_atomic :
    (runRace raceStart [true, false, true, false]).b =
      ClientPhase.done (.error "duplicate key value violates unique constraint") ∧
    (runRace raceStart [true, false, true, false]).entries.length = 1 ∧
    (runRace raceStart [true, true, false, false]).entries.length = 2 ∧
    (runRace raceStart [false, false, true, true]).entries.length = 2 :=
  ⟨rfl, rfl, rfl, rfl⟩

/-- C9 amended: the client computes the next position and inserts in two
separate round trips with no transaction and no retry; the unique index on
`(event_id, position)` rejects a conflicting insert, so no interleaving of
the two racing joins ever commits two entries with the same position — but
the losing join fails with the uniqueness error instead of serializing. -/
theorem race_positions_nodup :
    ∀ (sched : List Bool) (s : RaceState),
      (positions s.entries).Nodup → (positions (runRace s sched).entries).Nodup := by
  intro sched
  induction sched with
  | nil => exact fun s h => h
  | cons t rest ih =>
    intro s h
    exact ih (raceStep s t) (raceStep_nodup s t h)

/-- Witness for `race_positions_nodup` on the racing interleaving. -/
theorem race_positions_nodup_witness :
    (positions raceStart.entries).Nodup ∧
      (positions (runRace raceStart [true, false, true, false]).entries).Nodup :=
  ⟨by decide, race_positions_nodup [true, false, true, false] raceStart (by decide)⟩

theorem sorted_le_range' (s n : Nat) : List.Sorted (· ≤ ·) (List.range' s n) := by
  rw [List.range'_eq_map_range]
  exact List.Pairwise.map _ (fun a b h => Nat.add_le_add_left h s) (List.sorted_le_range n)

theorem seqCheck_iff (l : List Entry) : seqCheck l = true ↔ positionsOk l := by
  unfold seqCheck positionsOk
  rw [decide_eq_true_iff]
  constructor
  · intro h
    exact h ▸ (List.perm_insertionSort (· ≤ ·) (positions l)).symm
  · intro h
    exact List.eq_of_perm_of_sorted
      ((List.perm_insertionSort (· ≤ ·) (positions l)).trans h)
      (List.sorted_insertionSort (· ≤ ·) (positions l))
      (sorted_le_range' 1 l.length)

theorem map_pred_range' : ∀ (b a : Nat),
    (List.range' (a + 1) b).map (fun q => q - 1) = List.range' a b := by
  intro b
  induction b with
  | zero => intro a; rfl
  | succ m ih =>
    intro a
    rw [List.range'_succ, List.map_cons, ih (a + 1), Nat.add_sub_cancel, List.range'_succ]

theorem range'_split_at (a b : Nat) :
    List.range' 1 (a + b + 1) = List.range' 1 a ++ (a + 1) :: List.range' (a + 2) b := by
  have hn : a + b + 1 = (b + 1) + a := by omega
  rw [hn, ← List.range'_append_1 1 a (b + 1)]
  congr 1
  rw [Nat.add_comm 1 a, List.range'_succ]

theorem perm_erase_shift (Q : List Nat) (p N : Nat)
    (h : (p :: Q).Perm (List.range' 1 N)) :
    (Q.map fun q => if p < q then q - 1 else q).Perm (List.range' 1 (N - 1)) := by
  have hp : p ∈ List.range' 1 N := h.subset (List.mem_cons_self p Q)
  have hbounds : 1 ≤ p ∧ p < 1 + N := by
    rcases List.mem_range'.mp hp with ⟨j, hj, hpe⟩
    omega
  obtain ⟨a, rfl⟩ : ∃ a, p = a + 1 := ⟨p - 1, by omega⟩
  obtain ⟨b, rfl⟩ : ∃ b, N = a + b + 1 := ⟨N - a - 1, by omega⟩
  rw [range'_split_at a b] at h
  have h2 : Q.Perm (List.range' 1 a ++ List.range' (a + 2) b) :=
    (h.trans List.perm_middle).cons_inv
  have h3 := h2.map (fun q => if a + 1 < q then q - 1 else q)
  rw [List.map_append] at h3
  have hm1 : (List.range' 1 a).map (fun q => if a + 1 < q then q - 1 else q) =
      List.range' 1 a := by
    have hcg : ∀ q ∈ List.range' 1 a,
        (fun q => if a + 1 < q then q - 1 else q) q = (fun q => q) q := by
      intro q hq
      rcases List.mem_range'.mp hq with ⟨j, hj, rfl⟩
      simp only []
      rw [if_neg]
      omega
    rw [List.map_congr_left hcg, List.map_id']
  have hm2 : (List.range' (a + 2) b).map (fun q => if a + 1 < q then q - 1 else q) =
      List.range' (a + 1) b := by
    have hcg : ∀ q ∈ List.range' (a + 2) b,
        (fun q => if a + 1 < q then q - 1 else q) q = (fun q => q - 1) q := by
      intro q hq
      rcases List.mem_range'.mp hq with ⟨j, hj, rfl⟩
      simp only []
      rw [if_pos]
      omega
    rw [List.map_congr_left hcg, map_pred_range' b (a + 1)]
  rw [hm1, hm2] at h3
  have happ : List.range' 1 a ++ List.range' (a + 1) b = List.range' 1 (a + b) := by
    have h4 := List.range'_append_1 1 a b
    rw [Nat.add_comm 1 a] at h4
    rw [h4, Nat.add_comm b a]
  rw [happ] at h3
  have hsub : a + b + 1 - 1 = a + b := by omega
  rw [hsub]
  exact h3

theorem find?_eraseP_decomp (pr : Entry → Bool) :
    ∀ (l : List Entry) (e : Entry), l.find? pr = some e →
      ∃ l₁ l₂, l = l₁ ++ e :: l₂ ∧ l.eraseP pr = l₁ ++ l₂ := by
  intro l
  induction l with
  | nil =>
    intro e h
    cases h
  | cons a t ih =>
    intro e h
    by_cases ha : pr a
    · rw [List.find?_cons_of_pos _ ha] at h
      cases h
      exact ⟨[], t, rfl, List.eraseP_cons_of_pos ha⟩
    · rw [List.find?_cons_of_neg _ ha] at h
      obtain ⟨l₁, l₂, hl, he⟩ := ih e h
      refine ⟨a :: l₁, l₂, by rw [List.cons_append, ← hl], ?_⟩
      rw [List.eraseP_cons_of_neg ha, he, List.cons_append]

theorem foldr_max_le (L : List Nat) (b : Nat) (h : ∀ x ∈ L, x ≤ b) :
    L.foldr max 0 ≤ b := by
  induction L with
  | nil => exact Nat.zero_le b
  | cons a t ih =>
    simp only [List.foldr_cons]
    exact Nat.max_le.mpr
      ⟨h a (List.mem_cons_self a t), ih fun x hx => h x (List.mem_cons_of_mem a hx)⟩

theorem le_foldr_max (L : List Nat) (x : Nat) (h : x ∈ L) : x ≤ L.foldr max 0 := by
  induction L with
  | nil => cases h
  | cons a t ih =>
    simp only [List.foldr_cons]
    rcases List.mem_cons.mp h with rfl | hx
    · exact Nat.le_max_left _ _
    · exact Nat.le_trans (ih hx) (Nat.le_max_right _ _)

theorem maxPos_of_positionsOk (l : List Entry) (hok : positionsOk l) :
    maxPos l = l.length := by
  have hok' : (positions l).Perm (List.range' 1 l.length) := hok
  cases hN : l.length with
  | zero =>
    rw [hN] at hok'
    have hnil : positions l = [] := List.Perm.eq_nil hok'
    simp [maxPos, hnil, hN]
  | succ m =>
    rw [← hN]
    apply Nat.le_antisymm
    · apply foldr_max_le
      intro x hx
      have hx' := hok'.subset hx
      rcases List.mem_range'.mp hx' with ⟨j, hj, rfl⟩
      omega
    · apply le_foldr_max
      apply hok'.symm.subset
      rw [hN]
      exact List.mem_range'.mpr ⟨m, Nat.lt_succ_self m, by omega⟩

theorem joinList_preserves (l : List Entry) (i : Nat) (hok : positionsOk l) :
    positionsOk (joinList l i) := by
  have hmax := maxPos_of_positionsOk l hok
  have hlen : (joinList l i).length = l.length + 1 := by simp [joinList]
  have hpos : positions (joinList l i) = positions l ++ [l.length + 1] := by
    simp [joinList, positions, joinEntry, nextPosition_eq, hmax]
  have hr : List.range' 1 (l.length + 1) = List.range' 1 l.length ++ [l.length + 1] := by
    have h4 := List.range'_append_1 1 l.length 1
    rw [List.range'_one, Nat.add_comm 1 l.length] at h4
    exact h4.symm
  rw [positionsOk, hlen, hpos, hr]
  exact List.Perm.append_right [l.length + 1] hok

theorem reorder_ok_positionsOk (l l' : List Entry) (i np : Nat)
    (hok : positionsOk l) (h : reorder l i np = .ok l') : positionsOk l' := by
  unfold reorder at h
  split at h
  · cases h
  · split at h
    · cases h
      exact hok
    · rename_i e hfind hne
      by_cases hdir : np < e.pos
      · rw [if_pos hdir] at h
        split at h
        · rename_i hchk
          cases h
          exact (seqCheck_iff _).mp hchk
        · cases h
      · rw [if_neg hdir] at h
        split at h
        · rename_i hchk
          cases h
          exact (seqCheck_iff _).mp hchk
        · cases h

theorem removeEntry_preserves (l : List Entry) (i : Nat)
    (hok : positionsOk l) (hrem : removeOkB l i = true) :
    positionsOk (removeEntry l i) := by
  cases hfind : l.find? (fun x => x.id == i) with
  | none => simpa only [removeEntry, hfind] using hok
  | some e =>
    simp only [removeEntry, hfind]
    obtain ⟨l₁, l₂, hl, he⟩ := find?_eraseP_decomp _ l e hfind
    have hwait : ∀ x ∈ l, e.pos < x.pos → x.status = EntryStatus.waiting := by
      intro x hx hlt
      unfold removeOkB at hrem
      rw [hfind] at hrem
      have hall := List.all_eq_true.mp hrem x hx
      simp only [Bool.or_eq_true, Bool.not_eq_true', decide_eq_false_iff_not,
        decide_eq_true_eq] at hall
      rcases hall with hno | hyes
      · exact absurd hlt hno
      · exact hyes
    have hmem' : ∀ x ∈ l.eraseP (fun x => x.id == i), x ∈ l := by
      intro x hx
      rw [he] at hx
      rw [hl]
      rcases List.mem_append.mp hx with h1 | h2
      · exact List.mem_append.mpr (Or.inl h1)
      · exact List.mem_append.mpr (Or.inr (List.mem_cons_of_mem _ h2))
    have hpos : positions (compact (l.eraseP (fun x => x.id == i)) e.pos) =
        (positions (l.eraseP (fun x => x.id == i))).map
          (fun q => if e.pos < q then q - 1 else q) := by
      unfold compact positions
      rw [List.map_map, List.map_map]
      apply List.map_congr_left
      intro x hx
      by_cases hgt : e.pos < x.pos
      · have hw := hwait x (hmem' x hx) hgt
        simp [Function.comp, hgt, hw]
      · simp [Function.comp, hgt]
    have hperm : (e.pos :: positions (l.eraseP (fun x => x.id == i))).Perm
        (List.range' 1 l.length) := by
      have h0 : positions l = positions l₁ ++ e.pos :: positions l₂ := by
        rw [hl]
        simp [positions]
      have h2 : positions (l.eraseP (fun x => x.id == i)) =
          positions l₁ ++ positions l₂ := by
        rw [he, positions_append]
      have hok' : (positions l).Perm (List.range' 1 l.length) := hok
      rw [h0] at hok'
      rw [h2]
      exact List.perm_middle.symm.trans hok'
    have hres := perm_erase_shift _ e.pos l.length hperm
    rw [← hpos] at hres
    have hlenc : (compact (l.eraseP (fun x => x.id == i)) e.pos).length =
        (l.eraseP (fun x => x.id == i)).length := by
      simp [compact]
    have hlen : (l.eraseP (fun x => x.id == i)).length = l.length - 1 := by
      rw [he, hl]
      simp
    rw [positionsOk, hlenc, hlen]
    exact hres

theorem positions_shiftUp (l : List Entry) (np op : Nat) :
    positions (shiftUp l np op) =
      l.map fun x => if np ≤ x.pos ∧ x.pos < op then x.pos + 1 else x.pos := by
  unfold positions shiftUp
  rw [List.map_map]
  apply List.map_congr_left
  intro x hx
  by_cases hc : np ≤ x.pos ∧ x.pos < op <;> simp [Function.comp, hc]

theorem positions_shiftDown (l : List Entry) (op np : Nat) :
    positions (shiftDown l op np) =
      l.map fun x => if op < x.pos ∧ x.pos ≤ np then x.pos - 1 else x.pos := by
  unfold positions shiftDown
  rw [List.map_map]
  apply List.map_congr_left
  intro x hx
  by_cases hc : op < x.pos ∧ x.pos ≤ np <;> simp [Function.comp, hc]

/-- C2: the claimed move semantics is the reorder function's own documented
intent, but the shift UPDATE runs while the target row still holds its old
position, so on a gap-free queue the row in the slot adjacent to the target
is shifted onto that still-held position and the non-deferrable unique
index aborts the call: every in-range move on a `{1..N}` queue fails with
the duplicate-key error — in particular the spec's worked example, moving
position 4 of `[1..5]` to position 2 — and only the no-op path returns
successfully. -/
theorem reorder_dense_move_duplicate_key :
    reorderRPC
        [⟨1, 1, EntryStatus.waiting, none, none⟩, ⟨2, 2, EntryStatus.waiting, none, none⟩,
          ⟨3, 3, EntryStatus.waiting, none, none⟩, ⟨4, 4, EntryStatus.waiting, none, none⟩,
          ⟨5, 5, EntryStatus.waiting, none, none⟩] 4 2 =
      .error "duplicate key value violates unique constraint" ∧
    (∀ (l : List Entry) (i np : Nat) (e : Entry),
      l.find? (fun x => x.id == i) = some e → positionsOk l →
      e.pos ≠ np → 1 ≤ np → np ≤ l.length →
      reorderRPC l i np = .error "duplicate key value violates unique constraint") ∧
    (∀ (l : List Entry) (i : Nat) (e : Entry),
      l.find? (fun x => x.id == i) = some e → reorderRPC l i e.pos = .ok l) := by
  refine ⟨rfl, ?_, ?_⟩
  · intro l i np e hfind hok hne h1 hN
    have hok' : (positions l).Perm (List.range' 1 l.length) := hok
    have hmem : e ∈ l := List.mem_of_find?_eq_some hfind
    have hePosMem : e.pos ∈ positions l := List.mem_map_of_mem Entry.pos hmem
    have heB : 1 ≤ e.pos ∧ e.pos ≤ l.length := by
      rcases List.mem_range'.mp (hok'.subset hePosMem) with ⟨j, hj, hje⟩
      omega
    by_cases hdir : np < e.pos
    · have hAdjMem : e.pos - 1 ∈ positions l := by
        apply hok'.symm.subset
        exact List.mem_range'.mpr ⟨e.pos - 2, by omega, by omega⟩
      obtain ⟨y, hy, hypos⟩ := List.mem_map.mp hAdjMem
      have hdup : hasDupPositions (shiftUp l np e.pos) = true := by
        simp only [hasDupPositions]
        rw [decide_eq_true_iff]
        intro hnd
        rw [positions_shiftUp] at hnd
        have hinj := List.inj_on_of_nodup_map hnd
        have hfy : (if np ≤ y.pos ∧ y.pos < e.pos then y.pos + 1 else y.pos) = e.pos := by
          rw [if_pos ⟨by omega, by omega⟩]
          omega
        have hfe : (if np ≤ e.pos ∧ e.pos < e.pos then e.pos + 1 else e.pos) = e.pos := by
          rw [if_neg (by omega)]
        have hye : y = e := hinj hy hmem (hfy.trans hfe.symm)
        have : y.pos = e.pos := by rw [hye]
        omega
      simp only [reorderRPC, hfind]
      rw [if_neg hne, if_pos hdir, if_pos hdup]
    · have hdir' : e.pos < np := by omega
      have hAdjMem : e.pos + 1 ∈ positions l := by
        apply hok'.symm.subset
        exact List.mem_range'.mpr ⟨e.pos, by omega, by omega⟩
      obtain ⟨y, hy, hypos⟩ := List.mem_map.mp hAdjMem
      have hdup : hasDupPositions (shiftDown l e.pos np) = true := by
        simp only [hasDupPositions]
        rw [decide_eq_true_iff]
        intro hnd
        rw [positions_shiftDown] at hnd
        have hinj := List.inj_on_of_nodup_map hnd
        have hfy : (if e.pos < y.pos ∧ y.pos ≤ np then y.pos - 1 else y.pos) = e.pos := by
          rw [if_pos ⟨by omega, by omega⟩]
          omega
        have hfe : (if e.pos < e.pos ∧ e.pos ≤ np then e.pos - 1 else e.pos) = e.pos := by
          rw [if_neg (by omega)]
        have hye : y = e := hinj hy hmem (hfy.trans hfe.symm)
        have : y.pos = e.pos := by rw [hye]
        omega
      simp only [reorderRPC, hfind]
      rw [if_neg hne, if_neg (by omega : ¬np < e.pos), if_pos hdup]
  · intro l i e hfind
    simp [reorderRPC, hfind]

/-- Witness for `reorder_dense_move_duplicate_key`: on the dense queue
`[1, 2, 3]` the move 3 → 1 hits the duplicate-key abort, and a no-op
reorder of the entry at position 2 returns the rows unchanged. -/
theorem reorder_dense_move_duplicate_key_witness :
    reorderRPC
        [⟨1, 1, EntryStatus.waiting, none, none⟩, ⟨2, 2, EntryStatus.waiting, none, none⟩,
          ⟨3, 3, EntryStatus.waiting, none, none⟩] 3 1 =
      .error "duplicate key value violates unique constraint" ∧
    reorderRPC
        [⟨1, 1, EntryStatus.waiting, none, none⟩, ⟨2, 2, EntryStatus.waiting, none, none⟩,
          ⟨3, 3, EntryStatus.waiting, none, none⟩] 2 2 =
      .ok
        [⟨1, 1, EntryStatus.waiting, none, none⟩, ⟨2, 2, EntryStatus.waiting, none, none⟩,
          ⟨3, 3, EntryStatus.waiting, none, none⟩] :=
  ⟨reorder_dense_move_duplicate_key.2.1
      [⟨1, 1, EntryStatus.waiting, none, none⟩, ⟨2, 2, EntryStatus.waiting, none, none⟩,
        ⟨3, 3, EntryStatus.waiting, none, none⟩] 3 1 ⟨3, 3, EntryStatus.waiting, none, none⟩
      (by decide) (by decide) (by decide) (by decide) (by decide),
    reorder_dense_move_duplicate_key.2.2
      [⟨1, 1, EntryStatus.waiting, none, none⟩, ⟨2, 2, EntryStatus.waiting, none, none⟩,
        ⟨3, 3, EntryStatus.waiting, none, none⟩] 2 ⟨2, 2, EntryStatus.waiting, none, none⟩
      (by decide)⟩

/-- C1 counterexample: starting from the valid state
`[{pos 1, waiting}, {pos 2, completed}]`, deleting the `waiting` entry at
position 1 leaves positions `{2}` for an entry count of 1 — the compaction
trigger skips the non-`waiting` entry, so the settled state violates the
`{1..N}` invariant the claim asserts for every remove. -/
theorem remove_breaks_invariant :
    positionsOk
      [⟨1, 1, EntryStatus.waiting, none, none⟩, ⟨2, 2, EntryStatus.completed, none, none⟩] ∧
    ¬positionsOk
      (applyOps
        [⟨1, 1, EntryStatus.waiting, none, none⟩, ⟨2, 2, EntryStatus.completed, none, none⟩]
        [LedgerOp.remove 1]) := by
  decide

/-- C1 amended: starting from a state whose positions are exactly `{1..N}`,
any sequence of join, reorder and remove operations preserves the invariant
provided every remove happens in a state where each entry placed after the
removed one is still `waiting`; joins and reorders need no proviso (a
rejected reorder rolls back).  Without the proviso a remove leaves a gap,
because the deletion trigger decrements only `waiting` entries. -/
theorem ledger_invariant_preserved :
    ∀ (ops : List LedgerOp) (l : List Entry),
      positionsOk l → goodRunB l ops = true → positionsOk (applyOps l ops) := by
  intro ops
  induction ops with
  | nil => exact fun l h _ => h
  | cons op rest ih =>
    intro l hok hrun
    simp only [goodRunB, Bool.and_eq_true] at hrun
    have hstep : applyOps l (op :: rest) = applyOps (applyOp l op) rest := rfl
    rw [hstep]
    apply ih _ ?_ hrun.2
    cases op with
    | join i => exact joinList_preserves l i hok
    | reorder i np =>
      simp only [applyOp]
      split
      · rename_i l' hr
        exact reorder_ok_positionsOk l l' i np hok hr
      · exact hok
    | remove i => exact removeEntry_preserves l i hok hrun.1

/-- Witness for `ledger_invariant_preserved` on a concrete run: two joins, a
reorder of the second entry to the front, then removal of the first entry
(everything after it `waiting`). -/
theorem ledger_invariant_preserved_witness :
    positionsOk ([] : List Entry) ∧
    goodRunB []
        [LedgerOp.join 1, LedgerOp.join 2, LedgerOp.reorder 2 1, LedgerOp.remove 1] = true ∧
    positionsOk
      (applyOps []
        [LedgerOp.join 1, LedgerOp.join 2, LedgerOp.reorder 2 1, LedgerOp.remove 1]) :=
  ⟨by decide, by decide,
    ledger_invariant_preserved
      [LedgerOp.join 1, LedgerOp.join 2, LedgerOp.reorder 2 1, LedgerOp.remove 1] []
      (by decide) (by decide)⟩

/-- C10 counterexample: deleting the `waiting` entry at position 2 below the
`completed` entry at position 3 leaves the gapped positions `{1, 3}` — yet
the very next reorder, moving the entry above the gap into it, is accepted,
so it is not the case that every subsequent reorder on the event fails. -/
theorem gap_then_reorder_succeeds :
    seqCheck
        (removeEntry
          [⟨1, 1, EntryStatus.waiting, none, none⟩, ⟨2, 2, EntryStatus.waiting, none, none⟩,
            ⟨3, 3, EntryStatus.completed, none, none⟩] 2) = false ∧
    reorder
        (removeEntry
          [⟨1, 1, EntryStatus.waiting, none, none⟩, ⟨2, 2, EntryStatus.waiting, none, none⟩,
            ⟨3, 3, EntryStatus.completed, none, none⟩] 2) 3 2 =
      .ok
        [⟨1, 1, EntryStatus.waiting, none, none⟩,
          ⟨3, 2, EntryStatus.completed, none, none⟩] :=
  ⟨by decide, rfl⟩

/-- C10 amended: the reorder integrity check runs over every entry of the
event regardless of status and passes exactly when the position multiset is
`{1..N}`; the deletion trigger decrements only `waiting` entries, so
deleting a `waiting` entry positioned below a non-`waiting` one leaves a gap
in the full sequence; after that, a reorder whose shifted result still fails
the `1..N` check is rejected, but a no-op reorder or one whose result
restores `1..N` (moving the entry above the gap into it) succeeds. -/
theorem reorder_check_vs_compaction :
    (∀ l : List Entry, seqCheck l = true ↔ positionsOk l) ∧
    removeEntry
        [⟨1, 1, EntryStatus.waiting, none, none⟩, ⟨2, 2, EntryStatus.waiting, none, none⟩,
          ⟨3, 3, EntryStatus.completed, none, none⟩] 2 =
      [⟨1, 1, EntryStatus.waiting, none, none⟩,
        ⟨3, 3, EntryStatus.completed, none, none⟩] ∧
    seqCheck
        [⟨1, 1, EntryStatus.waiting, none, none⟩,
          ⟨3, 3, EntryStatus.completed, none, none⟩] = false ∧
    reorder
        [⟨1, 1, EntryStatus.waiting, none, none⟩,
          ⟨3, 3, EntryStatus.completed, none, none⟩] 1 2 =
      .error "Position integrity check failed: gaps or duplicates detected" ∧
    reorder
        [⟨1, 1, EntryStatus.waiting, none, none⟩,
          ⟨3, 3, EntryStatus.completed, none, none⟩] 3 2 =
      .ok
        [⟨1, 1, EntryStatus.waiting, none, none⟩,
          ⟨3, 2, EntryStatus.completed, none, none⟩] ∧
    reorder
        [⟨1, 1, EntryStatus.waiting, none, none⟩,
          ⟨3, 3, EntryStatus.completed, none, none⟩] 3 3 =
      .ok
        [⟨1, 1, EntryStatus.waiting, none, none⟩,
          ⟨3, 3, EntryStatus.completed, none, none⟩] :=
  ⟨seqCheck_iff, rfl, by decide, rfl, rfl, rfl⟩

/-- Witness for `reorder_check_vs_compaction`: the check passes on a
two-entry event with positions `{1, 2}` of mixed statuses. -/
theorem reorder_check_vs_compaction_witness :
    seqCheck
        [⟨1, 1, EntryStatus.waiting, none, none⟩,
          ⟨2, 2, EntryStatus.completed, none, none⟩] = true ∧
    positionsOk
      [⟨1, 1, EntryStatus.waiting, none, none⟩,
        ⟨2, 2, EntryStatus.completed, none, none⟩] :=
  ⟨by decide,
    (reorder_check_vs_compaction.1
        [⟨1, 1, EntryStatus.waiting, none, none⟩,
          ⟨2, 2, EntryStatus.completed, none, none⟩]).mp (by decide)⟩

end OpenQ



